import Mathlib

/-!
Verification development for the hybrid-retrieval core of the
customer-help-app repository (chunking, embedding dispatch, dual-index
retrieval, reciprocal rank fusion, optional reranking).

Shallow embedding conventions:
* Python strings that the chunker manipulates character by character are
  modelled as `List Char`; strings that are only compared/copied (ids,
  titles, sources) stay `String`.
* Python floats are modelled as `ℚ`; the only float arithmetic the claims
  touch is sums of reciprocals `1/(60+r)` and comparisons between them,
  where exact rational arithmetic and IEEE double arithmetic agree on the
  stated facts (the compared sums are the same two terms commuted).
* The external tokenizer (tiktoken `cl100k_base`) is a parameter
  `tok : List Char → Nat`; the external embedding / DB / Meilisearch /
  Cohere calls are parameters of type `Except Unit _` (an exception is
  `.error ()`), mirroring the `try/except` structure of the source.
-/

/-! ## Chunker (`apps/api/services/chunking.py`) -/

/-- Python's `\s` / `str.strip` whitespace test, modelled by
`Char.isWhitespace` (space, tab, newline, carriage return). -/
def isWsC (c : Char) : Bool := c.isWhitespace

/-- The non-whitespace characters of a character list, in order.  Used to
state "reconstructs the original text modulo whitespace normalization". -/
def nonWs (cs : List Char) : List Char := cs.filter (fun c => !(isWsC c))

/-- Python `str.strip()`: drop leading and trailing whitespace. -/
def trimL (cs : List Char) : List Char :=
  ((cs.dropWhile isWsC).reverse.dropWhile isWsC).reverse

/-- Python `sep.join(pieces)`. -/
def joinSep (sep : List Char) : List (List Char) → List Char
  | [] => []
  | [x] => x
  | x :: y :: t => x ++ sep ++ joinSep sep (y :: t)

/-- Python `text.split('\n')` (used by `to_chunks`): split at every
newline, keeping empty pieces; the empty string yields `[[]]`. -/
def splitLines : List Char → List (List Char)
  | [] => [[]]
  | c :: rest =>
    if c = '\n' then [] :: splitLines rest
    else
      match splitLines rest with
      | p :: ps => (c :: p) :: ps
      | [] => [[c]]

/-- Terminal step of `re.split(r'\n\s*\n', text)` (see `goSP`): resolve the
pending whitespace run at end of input.  `acc` is the reversed current
piece, `pend` the reversed pending whitespace run.  A run containing at
least two newlines is a paragraph separator: the run's prefix before its
first newline stays with the previous piece and its suffix after its last
newline opens the final piece. -/
def finishRun (acc pend : List Char) : List (List Char) :=
  if 2 ≤ pend.count '\n' then
    [acc.reverse ++ pend.reverse.takeWhile (fun x => x != '\n'),
     (pend.takeWhile (fun x => x != '\n')).reverse]
  else
    [(pend ++ acc).reverse]

/-- Scanner for `re.split(r'\n\s*\n', text)` (used by
`_split_large_chunk`).  The regex matches a newline, greedy whitespace,
then a newline; with Python's leftmost/greedy semantics a match consumes a
maximal whitespace run from its first newline through its last newline,
so such a run containing ≥ 2 newlines separates paragraphs, its prefix of
non-newline whitespace staying with the previous piece and its suffix
after the last newline with the next.  `acc` is the reversed current
piece and `pend` the reversed whitespace run currently pending. -/
def goSP (acc pend : List Char) : List Char → List (List Char)
  | [] => finishRun acc pend
  | c :: rest =>
    if isWsC c then goSP acc (c :: pend) rest
    else
      if 2 ≤ pend.count '\n' then
        (acc.reverse ++ pend.reverse.takeWhile (fun x => x != '\n')) ::
          goSP (c :: pend.takeWhile (fun x => x != '\n')) [] rest
      else
        goSP (c :: (pend ++ acc)) [] rest

/-- `re.split(r'\n\s*\n', text)` from `_split_large_chunk`. -/
def splitParasL (cs : List Char) : List (List Char) := goSP [] [] cs

/-- One chunk as produced by `ChunkingService.to_chunks`:
`{'heading_path': ..., 'text': ...}`. -/
structure Chunk where
  headingPath : List Char
  text : List Char
deriving DecidableEq, Repr

/-- `re.match(r'^(#{1,6})\s+(.+)$', line)` on a single (newline-free)
line, returning the heading level and `group(2).strip()`.  The regex
matches iff the line starts with 1–6 `#` not followed by a further `#`,
the next character is whitespace, and at least one more character follows
(backtracking lets `.+` absorb a trailing whitespace character, so after
`strip()` the heading text is `strip` of everything after the hashes). -/
def headerMatch (line : List Char) : Option (Nat × List Char) :=
  let h := (line.takeWhile (fun c => c = '#')).length
  let rest := line.drop h
  if 1 ≤ h ∧ h ≤ 6 then
    match rest with
    | c :: _ :: _ => if isWsC c then some (h, trimL rest) else none
    | _ => none
  else none

/-- Loop state of the line pass of `to_chunks`: emitted chunks, current
heading-path stack, current chunk's lines, running token count. -/
structure ChunkState where
  chunks : List Chunk
  path : List (List Char)
  cur : List (List Char)
  curTokens : Nat
deriving Repr

/-- The "save current chunk if it has content" step:
`chunk_text = '\n'.join(current_chunk).strip(); if chunk_text: append`. -/
def emitChunk (chunks : List Chunk) (path cur : List (List Char)) : List Chunk :=
  if cur = [] then chunks
  else
    let t := trimL (joinSep ['\n'] cur)
    if t = [] then chunks
    else chunks ++ [⟨joinSep [' ', '>', ' '] path, t⟩]

/-- One iteration of the `for line in lines` loop of `to_chunks`. -/
def chunkStep (tok : List Char → Nat) (maxT : Nat) (st : ChunkState)
    (line : List Char) : ChunkState :=
  match headerMatch line with
  | some lh =>
    { chunks := emitChunk st.chunks st.path st.cur
      path := st.path.take (lh.1 - 1) ++ [lh.2]
      cur := [line]
      curTokens := tok line }
  | none =>
    let lt := tok line
    if maxT < st.curTokens + lt ∧ st.cur ≠ [] then
      { chunks := emitChunk st.chunks st.path st.cur
        path := st.path
        cur := [line]
        curTokens := lt }
    else
      { st with cur := st.cur ++ [line], curTokens := st.curTokens + lt }

/-- The line pass of `to_chunks` (everything before the post-processing
loop): fold the lines, then save the final chunk. -/
def chunkPass (tok : List Char → Nat) (maxT : Nat) (content : List Char) :
    List Chunk :=
  let st := (splitLines content).foldl (chunkStep tok maxT) ⟨[], [], [], 0⟩
  emitChunk st.chunks st.path st.cur

/-- Loop state of `_split_large_chunk`: emitted sub-chunks, current
paragraph group, running token count. -/
structure SplitState where
  subs : List Chunk
  curText : List (List Char)
  curTokens : Nat
deriving Repr

/-- One iteration of the `for para in paragraphs` loop of
`_split_large_chunk`. -/
def splitStep (tok : List Char → Nat) (maxT : Nat) (hp : List Char)
    (st : SplitState) (para : List Char) : SplitState :=
  let pt := tok para
  if maxT < st.curTokens + pt ∧ st.curText ≠ [] then
    { subs := st.subs ++ [⟨hp, joinSep ['\n', '\n'] st.curText⟩]
      curText := [para]
      curTokens := pt }
  else
    { st with curText := st.curText ++ [para], curTokens := st.curTokens + pt }

/-- `ChunkingService._split_large_chunk`: split an oversized chunk's text
at blank-line paragraph boundaries, re-joining groups with `'\n\n'`,
keeping the same heading path. -/
def split_large_chunk (tok : List Char → Nat) (maxT : Nat) (c : Chunk) :
    List Chunk :=
  let paras := splitParasL c.text
  let st := paras.foldl (splitStep tok maxT c.headingPath) ⟨[], [], 0⟩
  if st.curText = [] then st.subs
  else st.subs ++ [⟨c.headingPath, joinSep ['\n', '\n'] st.curText⟩]

/-- `ChunkingService.to_chunks`: line pass, then the post-processing loop
that re-splits any chunk whose text still exceeds `max_tokens`. -/
def to_chunks (tok : List Char → Nat) (maxT : Nat) (content : List Char) :
    List Chunk :=
  ((chunkPass tok maxT content).map
    (fun c => if maxT < tok c.text then split_large_chunk tok maxT c else [c])).flatten

/-- Claim C4 as stated: every emitted chunk is within the token budget,
except a chunk that is one paragraph (of the pre-split chunk it came
from) already exceeding the budget by itself. -/
def tokenBoundClaim (tok : List Char → Nat) (maxT : Nat)
    (content : List Char) : Prop :=
  ∀ c ∈ to_chunks tok maxT content,
    tok c.text ≤ maxT ∨
      (maxT < tok c.text ∧
        ∃ c0 ∈ chunkPass tok maxT content, c.text ∈ splitParasL c0.text)

/-- A concrete tokenizer that counts non-whitespace characters.  It is
additive across the `'\n'`/`'\n\n'` joins the chunker performs, which is
the hypothesis under which the amended token bound holds. -/
def nwLen (cs : List Char) : Nat := (nonWs cs).length

/-! ## Local embedder seeding (`apps/api/services/embeddings.py`,
`EmbeddingsService._embed_local`) -/

/-- The PRNG seed `_embed_local` derives for a text:
`np.random.seed(hash(text) % 2**32)`.  Python's `hash` on `str` is salted
with a fresh per-process value (PEP 456), so it is modelled as an explicit
function parameter `pyHash`: one interpretation per process. -/
def embed_local_seed (pyHash : String → Nat) (text : String) : Nat :=
  pyHash text % 2 ^ 32

/-! ## Router-level hybrid search (`apps/api/routers/rag.py`) -/

/-- The `RAGHit` pydantic model of `rag.py`. -/
structure RAGHit where
  id : String
  title : Option String := none
  url : Option String := none
  headingPath : Option String := none
  contentMd : String := ""
  score : ℚ := 0
  source : String := ""
deriving DecidableEq, Repr

/-- A row of the pgvector SQL query in `rag_search` (chunk joined with its
article). -/
structure VecRow where
  id : String
  headingPath : Option String := none
  contentMd : Option String := none
  title : Option String := none
  slug : Option String := none
  score : ℚ := 0
deriving DecidableEq, Repr

/-- A raw Meilisearch hit as retrieved in `rag_search`. -/
structure MeiliHit where
  id : String
  title : Option String := none
  slug : Option String := none
  summary : Option String := none
  contentMd : Option String := none
deriving DecidableEq, Repr

/-- Python truthiness of an optional string: `None` and `''` are falsy. -/
def pyTruthy : Option String → Option String
  | none => none
  | some s => if s = "" then none else some s

/-- `rag_search`'s shaping of a SQL row into a `RAGHit`:
`url=f"/a/{slug}" if slug else None`, `content_md=row['content_md'] or ''`,
fixed `source="vector"`. -/
def shapeVecHit (r : VecRow) : RAGHit :=
  { id := r.id
    title := r.title
    url := (pyTruthy r.slug).map (fun s => "/a/" ++ s)
    headingPath := r.headingPath
    contentMd := (pyTruthy r.contentMd).getD ""
    score := r.score
    source := "vector" }

/-- `rag_search`'s shaping of a Meilisearch hit into a `RAGHit`:
`content = hit.get('summary') or hit.get('content_md', '')`, fixed score
`0.6`, fixed `source="bm25"`. -/
def shapeBm25Hit (h : MeiliHit) : RAGHit :=
  { id := h.id
    title := h.title
    url := (pyTruthy h.slug).map (fun s => "/a/" ++ s)
    headingPath := none
    contentMd := (pyTruthy h.summary).getD ((pyTruthy h.contentMd).getD "")
    score := 3 / 5
    source := "bm25" }

/-- The rank dictionary `{hit.id: i + 1 for i, hit in enumerate(hits)}`:
iterate with a 0-based position, a later assignment to the same id
overwriting an earlier one. -/
def lastRankGo (i : String) (pos : Nat) (acc : Option Nat) :
    List String → Option Nat
  | [] => acc
  | x :: xs => lastRankGo i (pos + 1) (if x = i then some (pos + 1) else acc) xs

/-- 1-based rank of `i` in `ids` as the Python dict comprehension computes
it (`none` when absent, last occurrence winning on duplicates). -/
def lastRank (ids : List String) (i : String) : Option Nat :=
  lastRankGo i 0 none ids

/-- The `all_hits` dictionary of `_reciprocal_rank_fusion` in `rag.py`:
`for hit in vector_hits + bm25_hits: if hit.id not in all_hits: ...` —
keep the first occurrence of each id, in first-seen order. -/
def dedupByIdFirst (hits : List RAGHit) : List RAGHit :=
  hits.foldl
    (fun acc h => if acc.any (fun x => x.id == h.id) then acc else acc ++ [h]) []

/-- Stable insertion (descending by `key`) used to model Python's stable
`sorted(..., reverse=True)`: an earlier element is placed before every
later element whose key is not larger. -/
def insertDescBy (key : α → ℚ) (x : α) : List α → List α
  | [] => [x]
  | y :: ys => if key y ≤ key x then x :: y :: ys else y :: insertDescBy key x ys

/-- Stable descending sort by `key`; agrees with Python's
`sorted(..., key=..., reverse=True)` (stable, ties keep input order). -/
def sortDescBy (key : α → ℚ) : List α → List α
  | [] => []
  | x :: xs => insertDescBy key x (sortDescBy key xs)

/-- The RRF score of one id in `_reciprocal_rank_fusion`: each input list
containing the id contributes `1/(k_constant + rank)`. -/
def rrfScore (vIds bIds : List String) (kc : ℚ) (i : String) : ℚ :=
  (match lastRank vIds i with
   | some r => 1 / (kc + r)
   | none => 0) +
  (match lastRank bIds i with
   | some r => 1 / (kc + r)
   | none => 0)

/-- `_reciprocal_rank_fusion` of `rag.py`: rank maps from both lists,
first-seen-keyed `all_hits` pool, RRF scores, stable descending sort,
truncation to `k`, and the hit's `score` field overwritten with the RRF
score.  (Python sorts the ids and then looks each id up in `all_hits`;
since the pool holds exactly one hit per id and the key depends only on
the id, sorting the pooled hit objects directly is the same list.) -/
def ragKey (vHits bHits : List RAGHit) (kc : ℚ) (h : RAGHit) : ℚ :=
  rrfScore (vHits.map (fun x => x.id)) (bHits.map (fun x => x.id)) kc h.id

def rag_reciprocal_rank_fusion (vHits bHits : List RAGHit) (k : Nat)
    (kc : ℚ) : List RAGHit :=
  ((sortDescBy (ragKey vHits bHits kc) (dedupByIdFirst (vHits ++ bHits))).take
      k).map
    (fun h => { h with score := ragKey vHits bHits kc h })

/-- `k = max(1, min(payload.top_k, 10))` in `rag_search`. -/
def clampTopK (t : Int) : Int := max 1 (min t 10)

/-- Python `str.strip()` on a `String`, via the character-level `trimL`
(drop leading and trailing whitespace). -/
def pyStrip (s : String) : String := String.mk (trimL s.toList)

/-- The outcomes of the external effects one `rag_search` request
performs.  `vectorRes` is the DB query's outcome given the embedding;
`embedRes`/`meiliRes` are `.error ()` when the corresponding call raises. -/
structure RagEnv where
  embedRes : Except Unit (List (List ℚ))
  vectorRes : List ℚ → Except Unit (List VecRow)
  meiliConfigured : Bool
  meiliRes : Except Unit (List MeiliHit)

/-- The vector branch of `rag_search` (its first `try` block): embed the
query, run the similarity query, shape rows; any exception inside the
block yields `vector_hits = []`; an empty embedding list leaves the
query embedding `None` and also yields `[]`. -/
def ragVectorHits (env : RagEnv) : List RAGHit :=
  match env.embedRes with
  | .error _ => []
  | .ok embs =>
    match embs.head? with
    | none => []
    | some e =>
      match env.vectorRes e with
      | .error _ => []
      | .ok rows => rows.map shapeVecHit

/-- The BM25 branch of `rag_search` (its second `try` block): when
Meilisearch is configured, search with limit `k * 2` but shape only
`hits[:k]`; any exception yields `bm25_hits = []`. -/
def ragBm25Hits (env : RagEnv) (k : Nat) : List RAGHit :=
  if env.meiliConfigured then
    match env.meiliRes with
    | .error _ => []
    | .ok hits => (hits.take k).map shapeBm25Hit
  else []

/-- The `rag_search` endpoint: trim the query (empty → empty hit list),
clamp `top_k` to `[1, 10]`, run both branches, fuse with RRF.  The value
is `.ok hits`; no failure inside the pipeline escapes (the router's outer
`except` is unreachable from the modelled effects). -/
def rag_search (payloadQuery : String) (payloadTopK : Int) (env : RagEnv) :
    Except Unit (List RAGHit) :=
  let query := pyStrip payloadQuery
  if query = "" then .ok []
  else
    let k := (clampTopK payloadTopK).toNat
    .ok (rag_reciprocal_rank_fusion (ragVectorHits env) (ragBm25Hits env k) k 60)

/-- The claim-side reading of "pure vector ranking truncated to top_k":
the vector hits in their original (descending-similarity) order, the i-th
carrying the vector-only RRF value `1/(60 + i + 1)` that the fusion step
writes into `score`, cut to `k`. -/
def pureVectorRanking (v : List RAGHit) (k : Nat) : List RAGHit :=
  ((v.enum.map
    (fun p => { p.2 with score := 1 / ((60 : ℚ) + p.1 + 1) })).take k)

/-! ## Collection-aware search (`apps/api/services/collection_rag.py`) -/

/-- A row of the `collections` table as `get_collection` returns it. -/
structure Collection where
  id : String
  collectionKey : String
  name : String := ""
  embeddingModel : String := ""
  embeddingDimensions : Nat := 1536
  meiliIndexName : String := ""
deriving DecidableEq, Repr

/-- A result dict flowing through `CollectionRAGService`: SQL rows and
Meilisearch hits both carry an `id` and a `score`-bearing payload; the
optional fields model dict keys (`rrf_score`, `rerank_score`) that are
only added by later stages. -/
structure CHit where
  id : String
  headingPath : Option String := none
  contentMd : String := ""
  title : Option String := none
  slug : Option String := none
  score : ℚ := 0
  rrfScore : Option ℚ := none
  rerankScore : Option ℚ := none
deriving DecidableEq, Repr

/-- The `all_hits` dictionary of
`CollectionRAGService.reciprocal_rank_fusion`: every vector hit is
assigned (a later duplicate overwriting the stored value but keeping the
first occurrence's position, as Python dicts do), then a BM25 hit is
added only when its id is not yet present. -/
def collectionPool (vHits bHits : List CHit) : List CHit :=
  let afterV := vHits.foldl
    (fun acc h =>
      if acc.any (fun x => x.id == h.id) then
        acc.map (fun x => if x.id == h.id then h else x)
      else acc ++ [h]) []
  bHits.foldl
    (fun acc h => if acc.any (fun x => x.id == h.id) then acc else acc ++ [h])
    afterV

/-- `CollectionRAGService.reciprocal_rank_fusion`: same rank maps and RRF
scores as the router version, but no truncation, and the fused score is
stored in a new `rrf_score` key while the original `score` is left
untouched (`hit = all_hits[hit_id].copy(); hit['rrf_score'] = ...`). -/
def collectionKey (vHits bHits : List CHit) (kc : ℚ) (h : CHit) : ℚ :=
  rrfScore (vHits.map (fun x => x.id)) (bHits.map (fun x => x.id)) kc h.id

def reciprocal_rank_fusion (vHits bHits : List CHit) (kc : ℚ) : List CHit :=
  (sortDescBy (collectionKey vHits bHits kc) (collectionPool vHits bHits)).map
    (fun h => { h with rrfScore := some (collectionKey vHits bHits kc h) })

/-- `CollectionRAGService.search_meilisearch`: returns the hits when the
client is configured and the search succeeds, and `[]` both when the
settings are missing and when the call raises (its own `try/except`). -/
def search_meilisearch (configured : Bool) (res : Except Unit (List CHit)) :
    List CHit :=
  if configured then
    match res with
    | .ok hits => hits
    | .error _ => []
  else []

/-- State of `CohereReranker`: whether `__init__` obtained a client
(credentials present and construction succeeded), and the outcome of the
remote `rerank` call as `(index, relevance_score)` pairs. -/
structure RerankEnv where
  clientOk : Bool
  callRes : Except Unit (List (Nat × ℚ))

/-- `CohereReranker.rerank`: without a client, or when the remote call
raises, fall back to `documents[:top_k]`; with results, map each returned
index back to a copy of the original document carrying `rerank_score`
(out-of-range indices are skipped). -/
def cohere_rerank (re : RerankEnv) (documents : List CHit) (topK : Nat) :
    List CHit :=
  if !re.clientOk then documents.take topK
  else if documents = [] then []
  else
    match re.callRes with
    | .error _ => documents.take topK
    | .ok results =>
      results.filterMap
        (fun p => (documents.get? p.1).map
          (fun d => { d with rerankScore := some p.2 }))

/-- The outcomes of the external effects one `CollectionRAGService.search`
call performs.  `vectorRes` receives whether the visa table was selected
and the query embedding; unlike the router, the vector query's exception
is NOT caught locally and propagates. -/
structure CollectionEnv where
  collectionRes : Except Unit Collection
  embedRes : Except Unit (List (List ℚ))
  vectorRes : Bool → List ℚ → Except Unit (List CHit)
  meiliConfigured : Bool
  meiliRes : Except Unit (List CHit)

/-- The vector-search step of `CollectionRAGService.search`: with no
query embedding (`query_embedding is None`) vector search is skipped and
`vector_hits` stays `[]`; otherwise the table matching the collection is
queried, and its exception (if any) propagates. -/
def collectionVectorStep (env : CollectionEnv) (c : Collection)
    (embs : List (List ℚ)) : Except Unit (List CHit) :=
  match embs.head? with
  | none => pure []
  | some e => env.vectorRes (c.collectionKey == "visa") e

/-- `CollectionRAGService.search`: resolve the collection, embed the
query, run the vector search (visa collections use the `chunks_visa`
table), run the self-recovering Meilisearch search, fuse, then either
rerank the top `2*top_k` fused candidates or truncate the fused list to
`top_k`.  The whole body sits in a `try/except` that logs and RE-RAISES,
so any exception from collection lookup, embedding or the vector query is
surfaced to the caller as `.error ()`. -/
def collection_search (env : CollectionEnv) (topK : Nat)
    (reranker : Option RerankEnv) : Except Unit (List CHit) := do
  let coll ← env.collectionRes
  let embs ← env.embedRes
  let vectorHits ← collectionVectorStep env coll embs
  let bm25Hits := search_meilisearch env.meiliConfigured env.meiliRes
  let fused := reciprocal_rank_fusion vectorHits bm25Hits 60
  match reranker with
  | some re =>
    if fused ≠ [] then pure (cohere_rerank re (fused.take (2 * topK)) topK)
    else pure (fused.take topK)
  | none => pure (fused.take topK)

/-! ## Await order of one request (claim C9)

`rag_search` (rag.py) and `CollectionRAGService.search` are straight-line
`async` functions: each external call is awaited to completion before the
next line runs, so the order of the start/finish events of the embedding
call, the pgvector query, the Meilisearch query and the fusion step is
the textual order of the awaits. -/

/-- Start/finish events of the external calls of one retrieval request. -/
inductive RagEvent where
  | embedStart
  | embedDone
  | vecStart
  | vecDone
  | lexStart
  | lexDone
  | fuseStart
  | fuseDone
deriving DecidableEq, Repr

/-- Event order of one `rag_search` request (rag.py lines 51, 67, 105,
132): the embedding await completes, then the pgvector fetch is awaited
to completion, then the Meilisearch search runs to completion, then
fusion runs. -/
def ragSearchTrace : List RagEvent :=
  [.embedStart, .embedDone, .vecStart, .vecDone, .lexStart, .lexDone,
   .fuseStart, .fuseDone]

/-- Event order of one `CollectionRAGService.search` call
(collection_rag.py lines 221, 228/232, 237, 242): the same strictly
sequential await chain. -/
def collectionSearchTrace : List RagEvent :=
  [.embedStart, .embedDone, .vecStart, .vecDone, .lexStart, .lexDone,
   .fuseStart, .fuseDone]

/-- Position of an event in a trace. -/
def eventIdx (tr : List RagEvent) (e : RagEvent) : Nat := tr.indexOf e

/-- "Both searches start before either completes": the claim's
concurrency requirement on a trace. -/
def searchesConcurrent (tr : List RagEvent) : Prop :=
  eventIdx tr .vecStart < eventIdx tr .vecDone ∧
  eventIdx tr .vecStart < eventIdx tr .lexDone ∧
  eventIdx tr .lexStart < eventIdx tr .vecDone ∧
  eventIdx tr .lexStart < eventIdx tr .lexDone

/-- Concatenation of the non-whitespace characters of a list of pieces. -/
def nwConcat (ls : List (List Char)) : List Char := (ls.map nonWs).flatten

/-- Concatenation of the non-whitespace characters of the emitted chunk
texts. -/
def chunksNonWs (cs : List Chunk) : List Char :=
  (cs.map (fun c => nonWs c.text)).flatten

/-! ## Concrete instances used in worked examples, counterexamples and
witnesses -/

/-- Worked-example vector hits (spec §8): `vector_hits = [A, B, C]`. -/
def wexA : RAGHit := { id := "A", source := "vector", score := 9 / 10 }

def wexB : RAGHit := { id := "B", source := "vector", score := 4 / 5 }

def wexC : RAGHit := { id := "C", source := "vector", score := 7 / 10 }

/-- Worked-example lexical hits (spec §8): `lexical_hits = [B, A, D]`. -/
def wexB2 : RAGHit := { id := "B", source := "bm25", score := 3 / 5 }

def wexA2 : RAGHit := { id := "A", source := "bm25", score := 3 / 5 }

def wexD : RAGHit := { id := "D", source := "bm25", score := 3 / 5 }

def cwexA : CHit := { id := "A", score := 9 / 10 }

def cwexB : CHit := { id := "B", score := 4 / 5 }

def cwexC : CHit := { id := "C", score := 7 / 10 }

def cwexB2 : CHit := { id := "B", score := 3 / 5 }

def cwexA2 : CHit := { id := "A", score := 3 / 5 }

def cwexD : CHit := { id := "D", score := 3 / 5 }

/-- A collection-search environment whose embedding call raises. -/
def envCollEmbedFail : CollectionEnv :=
  { collectionRes := .ok { id := "1", collectionKey := "help_center" }
    embedRes := .error ()
    vectorRes := fun _ _ => .ok []
    meiliConfigured := true
    meiliRes := .ok [] }

/-- A collection-search environment whose embedding call returns no
vectors (empty list, not an exception). -/
def envCollEmbedEmpty : CollectionEnv :=
  { collectionRes := .ok { id := "1", collectionKey := "help_center" }
    embedRes := .ok []
    vectorRes := fun _ _ => .ok []
    meiliConfigured := true
    meiliRes := .ok [{ id := "L1" }, { id := "L2" }] }

/-- A healthy collection-search environment (used to witness the
reranker-fallback theorem). -/
def envCollOk : CollectionEnv :=
  { collectionRes := .ok { id := "1", collectionKey := "help_center" }
    embedRes := .ok [[1, 0]]
    vectorRes := fun _ _ => .ok [{ id := "V1", score := 9 / 10 }]
    meiliConfigured := true
    meiliRes := .ok [{ id := "L1" }] }

/-- A router environment whose embedding call raises. -/
def envRouterEmbedFail : RagEnv :=
  { embedRes := .error ()
    vectorRes := fun _ => .ok []
    meiliConfigured := true
    meiliRes := .ok [{ id := "L1" }] }

/-- A router environment whose Meilisearch call raises. -/
def envRouterLexFail : RagEnv :=
  { embedRes := .ok [[1, 0]]
    vectorRes := fun _ =>
      .ok [{ id := "x", score := 9 / 10 }, { id := "y", score := 1 / 2 }]
    meiliConfigured := true
    meiliRes := .error () }

/-- A reranker whose client was never initialized (no credentials). -/
def reNoClient : RerankEnv := { clientOk := false, callRes := .ok [] }

/-! ## Helper lemmas: whitespace-insensitive reconstruction (claim C3) -/

theorem nonWs_nil : nonWs [] = [] := rfl

theorem nonWs_append (a b : List Char) :
    nonWs (a ++ b) = nonWs a ++ nonWs b := List.filter_append a b

theorem nonWs_cons_ws {c : Char} (h : isWsC c) (cs : List Char) :
    nonWs (c :: cs) = nonWs cs := by
  simp [nonWs, h]

theorem nonWs_reverse (l : List Char) :
    nonWs l.reverse = (nonWs l).reverse := List.filter_reverse _ _

theorem nonWs_eq_nil_of_ws {l : List Char} (h : ∀ c ∈ l, isWsC c) :
    nonWs l = [] := by
  simp only [nonWs, List.filter_eq_nil_iff]
  intro c hc
  simp [h c hc]

theorem nonWs_dropWhile_ws (l : List Char) :
    nonWs (l.dropWhile isWsC) = nonWs l := by
  induction l with
  | nil => rfl
  | cons c cs ih =>
    by_cases h : isWsC c
    · rw [List.dropWhile_cons_of_pos h, ih, nonWs_cons_ws h]
    · rw [List.dropWhile_cons_of_neg h]

theorem nonWs_trimL (l : List Char) : nonWs (trimL l) = nonWs l := by
  unfold trimL
  rw [nonWs_reverse, nonWs_dropWhile_ws, nonWs_reverse, List.reverse_reverse,
    nonWs_dropWhile_ws]

theorem nwConcat_nil : nwConcat [] = [] := rfl

theorem nwConcat_cons (x : List Char) (ls : List (List Char)) :
    nwConcat (x :: ls) = nonWs x ++ nwConcat ls := by
  simp [nwConcat]

theorem nwConcat_append (a b : List (List Char)) :
    nwConcat (a ++ b) = nwConcat a ++ nwConcat b := by
  simp [nwConcat]

theorem nonWs_joinSep_of_ws {sep : List Char} (hsep : ∀ c ∈ sep, isWsC c) :
    ∀ ls : List (List Char), nonWs (joinSep sep ls) = nwConcat ls
  | [] => rfl
  | [x] => by simp [joinSep, nwConcat]
  | x :: y :: t => by
    rw [joinSep, nonWs_append, nonWs_append, nonWs_joinSep_of_ws hsep (y :: t),
      nonWs_eq_nil_of_ws hsep, nwConcat_cons, nwConcat_cons]
    simp [nwConcat_cons]

theorem splitLines_ne_nil (cs : List Char) : splitLines cs ≠ [] := by
  cases cs with
  | nil => simp [splitLines]
  | cons c rest =>
    rw [splitLines]
    by_cases h : c = '\n'
    · simp [h]
    · simp only [if_neg h]
      cases hr : splitLines rest with
      | nil => simp
      | cons p ps => simp

theorem splitLines_joinSep (cs : List Char) :
    joinSep ['\n'] (splitLines cs) = cs := by
  induction cs with
  | nil => rfl
  | cons c rest ih =>
    rw [splitLines]
    by_cases h : c = '\n'
    · rw [if_pos h]
      cases hr : splitLines rest with
      | nil => exact absurd hr (splitLines_ne_nil rest)
      | cons p ps =>
        rw [hr] at ih
        rw [joinSep, h, ← ih]
        simp
    · rw [if_neg h]
      cases hr : splitLines rest with
      | nil => exact absurd hr (splitLines_ne_nil rest)
      | cons p ps =>
        rw [hr] at ih
        cases ps with
        | nil => rw [joinSep, ← ih, joinSep]
        | cons q qs =>
          rw [joinSep, ← ih, joinSep]
          simp

theorem nwConcat_splitLines (cs : List Char) :
    nwConcat (splitLines cs) = nonWs cs := by
  have h : ∀ c ∈ ['\n'], isWsC c := by
    intro c hc
    simp only [List.mem_singleton] at hc
    subst hc
    rfl
  rw [← nonWs_joinSep_of_ws h (splitLines cs), splitLines_joinSep]

theorem nonWs_cons_nws {c : Char} (h : ¬ isWsC c) (cs : List Char) :
    nonWs (c :: cs) = c :: nonWs cs := by
  simp [nonWs, h]

theorem ws_of_mem_takeWhile {p : Char → Bool} {l : List Char}
    (hws : ∀ c ∈ l, isWsC c) : ∀ c ∈ l.takeWhile p, isWsC c := by
  intro c hc
  exact hws c ((l.takeWhile_sublist p).subset hc)

theorem nonWs_reverse_nil {l : List Char} (h : ∀ c ∈ l, isWsC c) :
    nonWs l.reverse = [] := by
  rw [nonWs_reverse, nonWs_eq_nil_of_ws h, List.reverse_nil]

theorem nonWs_finishRun (acc pend : List Char)
    (hws : ∀ c ∈ pend, isWsC c) :
    nwConcat (finishRun acc pend) = nonWs acc.reverse := by
  have hrev : ∀ c ∈ pend.reverse, isWsC c := by
    intro c hc
    exact hws c (List.mem_reverse.mp hc)
  have h1 : nonWs (pend.reverse.takeWhile (fun x => x != '\n')) = [] :=
    nonWs_eq_nil_of_ws (ws_of_mem_takeWhile hrev)
  have h2 : nonWs ((pend.takeWhile (fun x => x != '\n')).reverse) = [] :=
    nonWs_reverse_nil (ws_of_mem_takeWhile hws)
  have h3 : nonWs pend.reverse = [] := nonWs_reverse_nil hws
  unfold finishRun
  by_cases h : 2 ≤ pend.count '\n'
  · rw [if_pos h]
    rw [nwConcat_cons, nwConcat_cons, nwConcat_nil, nonWs_append, h1, h2]
    simp
  · rw [if_neg h]
    rw [nwConcat_cons, nwConcat_nil, List.reverse_append, nonWs_append, h3]
    simp

theorem goSP_nwConcat :
    ∀ (cs acc pend : List Char), (∀ c ∈ pend, isWsC c) →
      nwConcat (goSP acc pend cs) = nonWs acc.reverse ++ nonWs cs
  | [], acc, pend, hws => by
    rw [goSP, nonWs_finishRun acc pend hws, nonWs_nil, List.append_nil]
  | c :: rest, acc, pend, hws => by
    rw [goSP]
    by_cases hc : isWsC c
    · rw [if_pos hc, goSP_nwConcat rest acc (c :: pend)
        (by
          intro x hx
          rcases List.mem_cons.mp hx with h | h
          · subst h; exact hc
          · exact hws x h),
        nonWs_cons_ws hc]
    · have hrev : ∀ x ∈ pend.reverse, isWsC x := by
        intro x hx
        exact hws x (List.mem_reverse.mp hx)
      have h1 : nonWs (pend.reverse.takeWhile (fun x => x != '\n')) = [] :=
        nonWs_eq_nil_of_ws (ws_of_mem_takeWhile hrev)
      have h2 : nonWs ((pend.takeWhile (fun x => x != '\n')).reverse) = [] :=
        nonWs_reverse_nil (ws_of_mem_takeWhile hws)
      have h3 : nonWs pend.reverse = [] := nonWs_reverse_nil hws
      rw [if_neg hc]
      by_cases hcnt : 2 ≤ pend.count '\n'
      · rw [if_pos hcnt, nwConcat_cons,
          goSP_nwConcat rest (c :: pend.takeWhile (fun x => x != '\n')) []
            (by intro x hx; cases hx)]
        rw [nonWs_append, h1, List.reverse_cons, nonWs_append, h2,
          nonWs_cons_nws hc, nonWs_cons_nws hc, nonWs_nil]
        simp
      · rw [if_neg hcnt,
          goSP_nwConcat rest (c :: (pend ++ acc)) [] (by intro x hx; cases hx)]
        rw [List.reverse_cons, List.reverse_append, nonWs_append, nonWs_append,
          h3, nonWs_cons_nws hc]
        simp [nonWs_cons_nws hc, nonWs_nil]

theorem nwConcat_splitParasL (cs : List Char) :
    nwConcat (splitParasL cs) = nonWs cs := by
  rw [splitParasL, goSP_nwConcat cs [] [] (by intro x hx; cases hx)]
  rfl

theorem chunksNonWs_append (a b : List Chunk) :
    chunksNonWs (a ++ b) = chunksNonWs a ++ chunksNonWs b := by
  simp [chunksNonWs]

theorem isWsC_nl : ∀ c ∈ ['\n'], isWsC c := by
  intro c hc
  simp only [List.mem_singleton] at hc
  subst hc
  rfl

theorem isWsC_nlnl : ∀ c ∈ ['\n', '\n'], isWsC c := by
  intro c hc
  rcases List.mem_cons.mp hc with h | h
  · subst h; rfl
  · simp only [List.mem_singleton] at h
    subst h
    rfl

theorem emitChunk_nonWs (chunks : List Chunk) (path cur : List (List Char)) :
    chunksNonWs (emitChunk chunks path cur) =
      chunksNonWs chunks ++ nwConcat cur := by
  unfold emitChunk
  by_cases h : cur = []
  · rw [if_pos h]
    subst h
    rw [nwConcat_nil, List.append_nil]
  · rw [if_neg h]
    simp only []
    by_cases ht : trimL (joinSep ['\n'] cur) = []
    · rw [if_pos ht]
      have hz : nwConcat cur = [] := by
        rw [← nonWs_joinSep_of_ws isWsC_nl cur, ← nonWs_trimL, ht, nonWs_nil]
      rw [hz, List.append_nil]
    · rw [if_neg ht, chunksNonWs_append]
      simp [chunksNonWs, nonWs_trimL, nonWs_joinSep_of_ws isWsC_nl]

theorem chunkStep_nonWs (tok : List Char → Nat) (maxT : Nat)
    (st : ChunkState) (line : List Char) :
    chunksNonWs (chunkStep tok maxT st line).chunks ++
        nwConcat (chunkStep tok maxT st line).cur =
      chunksNonWs st.chunks ++ nwConcat st.cur ++ nonWs line := by
  unfold chunkStep
  cases h : headerMatch line with
  | some lh =>
    simp [emitChunk_nonWs, nwConcat_cons, nwConcat_nil]
  | none =>
    by_cases hc : maxT < st.curTokens + tok line ∧ st.cur ≠ []
    · rw [if_pos hc]
      simp [emitChunk_nonWs, nwConcat_cons, nwConcat_nil]
    · rw [if_neg hc]
      simp [nwConcat_append, nwConcat_cons, nwConcat_nil]

theorem foldl_chunkStep_nonWs (tok : List Char → Nat) (maxT : Nat) :
    ∀ (lines : List (List Char)) (st : ChunkState),
      chunksNonWs ((lines.foldl (chunkStep tok maxT) st)).chunks ++
          nwConcat ((lines.foldl (chunkStep tok maxT) st)).cur =
        chunksNonWs st.chunks ++ nwConcat st.cur ++ nwConcat lines
  | [], st => by rw [List.foldl_nil, nwConcat_nil, List.append_nil]
  | l :: ls, st => by
    rw [List.foldl_cons, foldl_chunkStep_nonWs tok maxT ls _, chunkStep_nonWs,
      nwConcat_cons]
    simp [List.append_assoc]

theorem chunkPass_nonWs (tok : List Char → Nat) (maxT : Nat)
    (content : List Char) :
    chunksNonWs (chunkPass tok maxT content) = nonWs content := by
  unfold chunkPass
  rw [emitChunk_nonWs, foldl_chunkStep_nonWs, nwConcat_splitLines]
  rfl

theorem splitStep_nonWs (tok : List Char → Nat) (maxT : Nat) (hp : List Char)
    (st : SplitState) (para : List Char) :
    chunksNonWs (splitStep tok maxT hp st para).subs ++
        nwConcat (splitStep tok maxT hp st para).curText =
      chunksNonWs st.subs ++ nwConcat st.curText ++ nonWs para := by
  unfold splitStep
  by_cases hc : maxT < st.curTokens + tok para ∧ st.curText ≠ []
  · rw [if_pos hc]
    simp [chunksNonWs_append, chunksNonWs, nwConcat_cons, nwConcat_nil,
      nonWs_joinSep_of_ws isWsC_nlnl]
  · rw [if_neg hc]
    simp [nwConcat_append, nwConcat_cons, nwConcat_nil]

theorem foldl_splitStep_nonWs (tok : List Char → Nat) (maxT : Nat)
    (hp : List Char) :
    ∀ (paras : List (List Char)) (st : SplitState),
      chunksNonWs ((paras.foldl (splitStep tok maxT hp) st)).subs ++
          nwConcat ((paras.foldl (splitStep tok maxT hp) st)).curText =
        chunksNonWs st.subs ++ nwConcat st.curText ++ nwConcat paras
  | [], st => by rw [List.foldl_nil, nwConcat_nil, List.append_nil]
  | p :: ps, st => by
    rw [List.foldl_cons, foldl_splitStep_nonWs tok maxT hp ps _,
      splitStep_nonWs, nwConcat_cons]
    simp [List.append_assoc]

theorem split_large_chunk_nonWs (tok : List Char → Nat) (maxT : Nat)
    (c : Chunk) :
    chunksNonWs (split_large_chunk tok maxT c) = nonWs c.text := by
  unfold split_large_chunk
  simp only []
  by_cases h :
      ((splitParasL c.text).foldl (splitStep tok maxT c.headingPath)
        ⟨[], [], 0⟩).curText = []
  · rw [if_pos h]
    have hf := foldl_splitStep_nonWs tok maxT c.headingPath (splitParasL c.text)
      ⟨[], [], 0⟩
    rw [h, nwConcat_nil, List.append_nil] at hf
    rw [hf, nwConcat_splitParasL]
    rfl
  · rw [if_neg h]
    have hf := foldl_splitStep_nonWs tok maxT c.headingPath (splitParasL c.text)
      ⟨[], [], 0⟩
    rw [chunksNonWs_append]
    have hone : chunksNonWs
        [⟨c.headingPath, joinSep ['\n', '\n']
          ((splitParasL c.text).foldl (splitStep tok maxT c.headingPath)
            ⟨[], [], 0⟩).curText⟩] =
        nwConcat ((splitParasL c.text).foldl (splitStep tok maxT c.headingPath)
          ⟨[], [], 0⟩).curText := by
      simp [chunksNonWs, nonWs_joinSep_of_ws isWsC_nlnl]
    rw [hone, hf, nwConcat_splitParasL]
    rfl

theorem to_chunks_nonWs (tok : List Char → Nat) (maxT : Nat)
    (content : List Char) :
    chunksNonWs (to_chunks tok maxT content) = nonWs content := by
  unfold to_chunks
  rw [← chunkPass_nonWs tok maxT content]
  generalize chunkPass tok maxT content = l
  induction l with
  | nil => rfl
  | cons c cs ih =>
    rw [List.map_cons, List.flatten_cons, chunksNonWs_append, ih]
    by_cases h : maxT < tok c.text
    · rw [if_pos h, split_large_chunk_nonWs]
      simp [chunksNonWs]
    · rw [if_neg h]
      simp [chunksNonWs]

theorem nonWs_flatten :
    ∀ ls : List (List Char), nonWs ls.flatten = nwConcat ls
  | [] => rfl
  | x :: xs => by
    rw [List.flatten_cons, nonWs_append, nonWs_flatten xs, nwConcat_cons]

/-! ## Helper lemmas: rank maps, stable sort and pooling (claims C5, C10) -/

theorem lastRankGo_not_mem (i : String) :
    ∀ (xs : List String) (pos : Nat) (acc : Option Nat), i ∉ xs →
      lastRankGo i pos acc xs = acc
  | [], _, _, _ => rfl
  | x :: xs, pos, acc, h => by
    rw [lastRankGo]
    have hx : ¬ x = i := fun he => h (he ▸ List.mem_cons_self x xs)
    rw [if_neg hx]
    exact lastRankGo_not_mem i xs (pos + 1) acc
      (fun hm => h (List.mem_cons_of_mem x hm))

theorem lastRankGo_append (i : String) :
    ∀ (pre rest : List String) (pos : Nat) (acc : Option Nat), i ∉ pre →
      lastRankGo i pos acc (pre ++ rest) =
        lastRankGo i (pos + pre.length) acc rest
  | [], rest, pos, acc, _ => by simp [lastRankGo]
  | x :: pre, rest, pos, acc, h => by
    rw [List.cons_append, lastRankGo]
    have hx : ¬ x = i := fun he => h (he ▸ List.mem_cons_self x pre)
    rw [if_neg hx, lastRankGo_append i pre rest (pos + 1) acc
      (fun hm => h (List.mem_cons_of_mem x hm))]
    congr 1
    simp [List.length_cons]
    omega

theorem lastRank_pre_post (pre post : List String) (x : String)
    (hpre : x ∉ pre) (hpost : x ∉ post) :
    lastRank (pre ++ x :: post) x = some (pre.length + 1) := by
  unfold lastRank
  rw [lastRankGo_append x pre (x :: post) 0 none hpre, lastRankGo, if_pos rfl,
    lastRankGo_not_mem x post _ _ hpost]
  simp

theorem lastRank_nodup (ids : List String) (hnd : ids.Nodup) (i : Nat)
    (h : i < ids.length) :
    lastRank ids (ids.get ⟨i, h⟩) = some (i + 1) := by
  have hsplit : ids = ids.take i ++ ids[i] :: ids.drop (i + 1) := by
    rw [← List.drop_eq_getElem_cons h]
    exact (List.take_append_drop i ids).symm
  have hnd2 := hnd
  rw [hsplit, List.nodup_append] at hnd2
  rcases hnd2 with ⟨_, hndrop, hdisj⟩
  have hxpost : ids[i] ∉ ids.drop (i + 1) := (List.nodup_cons.mp hndrop).1
  have hxpre : ids[i] ∉ ids.take i := by
    intro hmem
    exact hdisj hmem (List.mem_cons_self _ _)
  have hlen : (ids.take i).length = i := by
    rw [List.length_take]
    omega
  have hmain := lastRank_pre_post (ids.take i) (ids.drop (i + 1)) ids[i]
    hxpre hxpost
  rw [hlen] at hmain
  show lastRank ids ids[i] = some (i + 1)
  calc lastRank ids ids[i]
      = lastRank (ids.take i ++ ids[i] :: ids.drop (i + 1)) ids[i] := by
        rw [← hsplit]
    _ = some (i + 1) := hmain

theorem lastRank_nil (i : String) : lastRank [] i = none := rfl

theorem mem_insertDescBy (key : α → ℚ) (x : α) :
    ∀ (l : List α) (z : α), z ∈ insertDescBy key x l ↔ z = x ∨ z ∈ l
  | [], z => by simp [insertDescBy]
  | y :: ys, z => by
    rw [insertDescBy]
    by_cases h : key y ≤ key x
    · rw [if_pos h]
      simp
    · rw [if_neg h]
      rw [List.mem_cons, mem_insertDescBy key x ys z, List.mem_cons]
      tauto

theorem mem_sortDescBy (key : α → ℚ) :
    ∀ (l : List α) (z : α), z ∈ sortDescBy key l ↔ z ∈ l
  | [], z => Iff.rfl
  | x :: xs, z => by
    rw [sortDescBy, mem_insertDescBy, mem_sortDescBy key xs z, List.mem_cons]

theorem sortDescBy_of_sorted (key : α → ℚ) :
    ∀ l : List α, l.Pairwise (fun a b => key b < key a) → sortDescBy key l = l
  | [], _ => rfl
  | x :: xs, h => by
    rw [sortDescBy,
      sortDescBy_of_sorted key xs (List.Pairwise.of_cons h)]
    cases xs with
    | nil => rfl
    | cons y ys =>
      rw [insertDescBy]
      have hlt : key y < key x :=
        (List.pairwise_cons.mp h).1 y (List.mem_cons_self y ys)
      rw [if_pos (le_of_lt hlt)]

theorem rrf_rank_strict {i j : Nat} (h : i < j) :
    (1 : ℚ) / (60 + (j + 1 : Nat)) < 1 / (60 + (i + 1 : Nat)) := by
  apply one_div_lt_one_div_of_lt
  · positivity
  · push_cast
    have : (i : ℚ) < j := by exact_mod_cast h
    linarith

theorem dedup_foldl_acc_append :
    ∀ (l acc : List RAGHit),
      (∀ h ∈ l, h.id ∉ acc.map (fun x => x.id)) →
      (l.map (fun x => x.id)).Nodup →
      l.foldl
          (fun acc h =>
            if acc.any (fun x => x.id == h.id) then acc else acc ++ [h]) acc =
        acc ++ l
  | [], acc, _, _ => by simp
  | h :: hs, acc, hfresh, hnd => by
    rw [List.foldl_cons]
    have hnotin : h.id ∉ acc.map (fun x => x.id) :=
      hfresh h (List.mem_cons_self h hs)
    have hany : acc.any (fun x => x.id == h.id) = false := by
      rw [List.any_eq_false]
      intro x hx
      intro hbeq
      exact hnotin (List.mem_map.mpr ⟨x, hx, beq_iff_eq.mp hbeq⟩)
    rw [hany]
    simp only [Bool.false_eq_true, if_false]
    have hnd2 := hnd
    rw [List.map_cons, List.nodup_cons] at hnd2
    have hstep := dedup_foldl_acc_append hs (acc ++ [h])
      (by
        intro g hg
        rw [List.map_append, List.mem_append]
        intro hgin
        rcases hgin with hin | hin
        · exact hfresh g (List.mem_cons_of_mem h hg) hin
        · simp only [List.map_cons, List.map_nil, List.mem_singleton] at hin
          exact hnd2.1 (hin ▸ List.mem_map.mpr ⟨g, hg, rfl⟩))
      hnd2.2
    rw [hstep, List.append_assoc]
    rfl

theorem dedupByIdFirst_of_nodup (v : List RAGHit)
    (hnd : (v.map (fun x => x.id)).Nodup) : dedupByIdFirst v = v := by
  unfold dedupByIdFirst
  have h := dedup_foldl_acc_append v [] (by simp) hnd
  simpa using h

theorem ragKey_get (v : List RAGHit) (kc : ℚ)
    (hnd : (v.map (fun x => x.id)).Nodup) (i : Nat) (hi : i < v.length) :
    ragKey v [] kc (v.get ⟨i, hi⟩) = 1 / (kc + ((i + 1 : Nat) : ℚ)) := by
  unfold ragKey rrfScore
  have hlen : i < (v.map (fun x => x.id)).length := by simpa using hi
  have hid : (v.get ⟨i, hi⟩).id = (v.map (fun x => x.id)).get ⟨i, hlen⟩ := by
    simp
  rw [hid, lastRank_nodup _ hnd i hlen, List.map_nil, lastRank_nil]
  simp

theorem rag_rrf_empty_lex (v : List RAGHit) (k : Nat)
    (hnd : (v.map (fun x => x.id)).Nodup) :
    rag_reciprocal_rank_fusion v [] k 60 = pureVectorRanking v k := by
  unfold rag_reciprocal_rank_fusion
  rw [List.append_nil, dedupByIdFirst_of_nodup v hnd]
  have hpw : v.Pairwise
      (fun a b => ragKey v [] 60 b < ragKey v [] 60 a) := by
    rw [List.pairwise_iff_get]
    intro i j hij
    rw [ragKey_get v 60 hnd i.1 i.2, ragKey_get v 60 hnd j.1 j.2]
    exact rrf_rank_strict hij
  rw [sortDescBy_of_sorted _ v hpw]
  apply List.ext_get
  · simp [pureVectorRanking]
  · intro i h1 h2
    have hi : i < v.length := by
      simp at h1
      omega
    simp only [pureVectorRanking, List.get_eq_getElem, List.getElem_map,
      List.getElem_take, List.getElem_enum]
    have hk := ragKey_get v 60 hnd i hi
    rw [List.get_eq_getElem] at hk
    rw [hk]
    push_cast
    ring_nf

theorem pureVectorRanking_ids (v : List RAGHit) (k : Nat) :
    (pureVectorRanking v k).map (fun h => h.id) =
      (v.take k).map (fun h => h.id) := by
  apply List.ext_get
  · simp [pureVectorRanking]
  · intro i h1 h2
    simp [pureVectorRanking, List.getElem_take, List.getElem_enum]

theorem except_bind_ok {α β : Type} (a : α) (f : α → Except Unit β) :
    (Except.ok a >>= f) = f a := rfl

theorem except_bind_err {α β : Type} (f : α → Except Unit β) :
    ((Except.error () : Except Unit α) >>= f) = Except.error () := rfl

theorem cohere_rerank_fallback (re : RerankEnv) (docs : List CHit)
    (topK : Nat) (hre : re.clientOk = false ∨ re.callRes = .error ()) :
    cohere_rerank re docs topK = docs.take topK := by
  unfold cohere_rerank
  rcases hre with h | h
  · rw [h]
    rfl
  · by_cases hcl : re.clientOk
    · rw [hcl]
      simp only [Bool.not_true, Bool.false_eq_true, if_false]
      by_cases hd : docs = []
      · rw [if_pos hd, hd, List.take_nil]
      · rw [if_neg hd, h]
    · rw [Bool.eq_false_iff.mpr hcl]
      rfl

theorem ragVectorHits_embed_err {env : RagEnv}
    (h : env.embedRes = .error ()) : ragVectorHits env = [] := by
  unfold ragVectorHits
  rw [h]

theorem ragBm25Hits_err {env : RagEnv} (h : env.meiliRes = .error ())
    (k : Nat) : ragBm25Hits env k = [] := by
  unfold ragBm25Hits
  rw [h]
  cases env.meiliConfigured <;> rfl

theorem rid_not_mem_of_any_false {acc : List RAGHit} {i : String}
    (h : acc.any (fun x => x.id == i) = false) :
    i ∉ acc.map (fun x => x.id) := by
  rw [List.any_eq_false] at h
  intro hmem
  obtain ⟨x, hx, hxi⟩ := List.mem_map.mp hmem
  exact h x hx (beq_iff_eq.mpr hxi)

theorem rid_mem_of_any_true {acc : List RAGHit} {i : String}
    (h : acc.any (fun x => x.id == i) = true) :
    i ∈ acc.map (fun x => x.id) := by
  obtain ⟨x, hx, hbeq⟩ := List.any_eq_true.mp h
  exact List.mem_map.mpr ⟨x, hx, beq_iff_eq.mp hbeq⟩

theorem mem_rdedup_foldl :
    ∀ (l acc : List RAGHit) (p : RAGHit),
      p ∈ l.foldl
          (fun acc h =>
            if acc.any (fun x => x.id == h.id) then acc else acc ++ [h]) acc →
        p ∈ acc ∨ (p ∈ l ∧ p.id ∉ acc.map (fun x => x.id))
  | [], acc, p, hp => Or.inl hp
  | h :: hs, acc, p, hp => by
    rw [List.foldl_cons] at hp
    by_cases hc : acc.any (fun x => x.id == h.id) = true
    · rw [if_pos hc] at hp
      rcases mem_rdedup_foldl hs acc p hp with hin | ⟨hin, hid⟩
      · exact Or.inl hin
      · exact Or.inr ⟨List.mem_cons_of_mem h hin, hid⟩
    · rw [if_neg hc] at hp
      have hfresh : h.id ∉ acc.map (fun x => x.id) :=
        rid_not_mem_of_any_false (Bool.eq_false_iff.mpr hc)
      rcases mem_rdedup_foldl hs (acc ++ [h]) p hp with hin | ⟨hin, hid⟩
      · rcases List.mem_append.mp hin with hin2 | hin2
        · exact Or.inl hin2
        · rw [List.mem_singleton] at hin2
          subst hin2
          exact Or.inr ⟨List.mem_cons_self p hs, hfresh⟩
      · refine Or.inr ⟨List.mem_cons_of_mem h hin, ?_⟩
        intro hmem
        exact hid (by rw [List.map_append, List.mem_append]; exact Or.inl hmem)

theorem rids_mono_foldl :
    ∀ (l acc : List RAGHit) (i : String), i ∈ acc.map (fun x => x.id) →
      i ∈ (l.foldl
          (fun acc h =>
            if acc.any (fun x => x.id == h.id) then acc else acc ++ [h])
          acc).map (fun x => x.id)
  | [], acc, i, hi => hi
  | h :: hs, acc, i, hi => by
    rw [List.foldl_cons]
    by_cases hc : acc.any (fun x => x.id == h.id) = true
    · rw [if_pos hc]
      exact rids_mono_foldl hs acc i hi
    · rw [if_neg hc]
      exact rids_mono_foldl hs (acc ++ [h]) i
        (by rw [List.map_append, List.mem_append]; exact Or.inl hi)

theorem rids_complete_foldl :
    ∀ (l acc : List RAGHit) (h : RAGHit), h ∈ l →
      h.id ∈ (l.foldl
          (fun acc h =>
            if acc.any (fun x => x.id == h.id) then acc else acc ++ [h])
          acc).map (fun x => x.id)
  | [], _, _, hmem => absurd hmem (List.not_mem_nil _)
  | g :: gs, acc, h, hmem => by
    rw [List.foldl_cons]
    rcases List.mem_cons.mp hmem with he | hin
    · subst he
      by_cases hc : acc.any (fun x => x.id == h.id) = true
      · rw [if_pos hc]
        exact rids_mono_foldl gs acc h.id (rid_mem_of_any_true hc)
      · rw [if_neg hc]
        exact rids_mono_foldl gs (acc ++ [h]) h.id
          (by
            rw [List.map_append, List.mem_append]
            right
            simp)
    · by_cases hc : acc.any (fun x => x.id == g.id) = true
      · rw [if_pos hc]
        exact rids_complete_foldl gs acc h hin
      · rw [if_neg hc]
        exact rids_complete_foldl gs (acc ++ [g]) h hin

theorem dedup_vector_preference (v b : List RAGHit) (p : RAGHit)
    (hp : p ∈ dedupByIdFirst (v ++ b)) :
    (p ∈ v ∨ p ∈ b) ∧ (p.id ∈ v.map (fun x => x.id) → p ∈ v) := by
  unfold dedupByIdFirst at hp
  rw [List.foldl_append] at hp
  rcases mem_rdedup_foldl b _ p hp with hA | ⟨hb, hnotid⟩
  · rcases mem_rdedup_foldl v [] p hA with hnil | ⟨hv, _⟩
    · cases hnil
    · exact ⟨Or.inl hv, fun _ => hv⟩
  · refine ⟨Or.inr hb, ?_⟩
    intro hidv
    obtain ⟨g, hg, hgid⟩ := List.mem_map.mp hidv
    exact absurd (hgid ▸ rids_complete_foldl v [] g hg) hnotid

theorem rag_rrf_shape (v b : List RAGHit) (k : Nat) (kc : ℚ) :
    ∀ out ∈ rag_reciprocal_rank_fusion v b k kc,
      ∃ h, (h ∈ v ∨ (h ∈ b ∧ h.id ∉ v.map (fun x => x.id))) ∧
        out = { h with score := ragKey v b kc h } := by
  intro out hout
  unfold rag_reciprocal_rank_fusion at hout
  obtain ⟨h, hmem, hEq⟩ := List.mem_map.mp hout
  have h2 : h ∈ sortDescBy (ragKey v b kc) (dedupByIdFirst (v ++ b)) :=
    List.take_subset _ _ hmem
  rw [mem_sortDescBy] at h2
  have h3 := dedup_vector_preference v b h h2
  by_cases hid : h.id ∈ v.map (fun x => x.id)
  · exact ⟨h, Or.inl (h3.2 hid), hEq.symm⟩
  · rcases h3.1 with hv | hb
    · exact ⟨h, Or.inl hv, hEq.symm⟩
    · exact ⟨h, Or.inr ⟨hb, hid⟩, hEq.symm⟩

theorem cid_not_mem_of_any_false {acc : List CHit} {i : String}
    (h : acc.any (fun x => x.id == i) = false) :
    i ∉ acc.map (fun x => x.id) := by
  rw [List.any_eq_false] at h
  intro hmem
  obtain ⟨x, hx, hxi⟩ := List.mem_map.mp hmem
  exact h x hx (beq_iff_eq.mpr hxi)

theorem mem_cdedup_foldl :
    ∀ (l acc : List CHit) (p : CHit),
      p ∈ l.foldl
          (fun acc h =>
            if acc.any (fun x => x.id == h.id) then acc else acc ++ [h]) acc →
        p ∈ acc ∨ (p ∈ l ∧ p.id ∉ acc.map (fun x => x.id))
  | [], acc, p, hp => Or.inl hp
  | h :: hs, acc, p, hp => by
    rw [List.foldl_cons] at hp
    by_cases hc : acc.any (fun x => x.id == h.id) = true
    · rw [if_pos hc] at hp
      rcases mem_cdedup_foldl hs acc p hp with hin | ⟨hin, hid⟩
      · exact Or.inl hin
      · exact Or.inr ⟨List.mem_cons_of_mem h hin, hid⟩
    · rw [if_neg hc] at hp
      have hfresh : h.id ∉ acc.map (fun x => x.id) :=
        cid_not_mem_of_any_false (Bool.eq_false_iff.mpr hc)
      rcases mem_cdedup_foldl hs (acc ++ [h]) p hp with hin | ⟨hin, hid⟩
      · rcases List.mem_append.mp hin with hin2 | hin2
        · exact Or.inl hin2
        · rw [List.mem_singleton] at hin2
          subst hin2
          exact Or.inr ⟨List.mem_cons_self p hs, hfresh⟩
      · refine Or.inr ⟨List.mem_cons_of_mem h hin, ?_⟩
        intro hmem
        exact hid (by rw [List.map_append, List.mem_append]; exact Or.inl hmem)

theorem coverwrite_ids (acc : List CHit) (h : CHit) :
    (acc.map (fun x => if x.id == h.id then h else x)).map (fun x => x.id) =
      acc.map (fun x => x.id) := by
  rw [List.map_map]
  apply List.map_congr_left
  intro y _
  simp only [Function.comp_apply]
  by_cases hy : (y.id == h.id) = true
  · rw [if_pos hy]
    exact (beq_iff_eq.mp hy).symm
  · rw [if_neg hy]

theorem mem_coverwrite_foldl :
    ∀ (l acc : List CHit) (p : CHit),
      p ∈ l.foldl
          (fun acc h =>
            if acc.any (fun x => x.id == h.id) then
              acc.map (fun x => if x.id == h.id then h else x)
            else acc ++ [h]) acc →
        p ∈ acc ∨ p ∈ l
  | [], acc, p, hp => Or.inl hp
  | h :: hs, acc, p, hp => by
    rw [List.foldl_cons] at hp
    by_cases hc : acc.any (fun x => x.id == h.id) = true
    · rw [if_pos hc] at hp
      rcases mem_coverwrite_foldl hs _ p hp with hin | hin
      · obtain ⟨x, hx, hxe⟩ := List.mem_map.mp hin
        by_cases hxi : x.id == h.id
        · rw [if_pos hxi] at hxe
          exact Or.inr (hxe ▸ List.mem_cons_self h hs)
        · rw [if_neg hxi] at hxe
          exact Or.inl (hxe ▸ hx)
      · exact Or.inr (List.mem_cons_of_mem h hin)
    · rw [if_neg hc] at hp
      rcases mem_coverwrite_foldl hs (acc ++ [h]) p hp with hin | hin
      · rcases List.mem_append.mp hin with hin2 | hin2
        · exact Or.inl hin2
        · rw [List.mem_singleton] at hin2
          exact Or.inr (hin2 ▸ List.mem_cons_self h hs)
      · exact Or.inr (List.mem_cons_of_mem h hin)

theorem cids_mono_overwrite_foldl :
    ∀ (l acc : List CHit) (i : String), i ∈ acc.map (fun x => x.id) →
      i ∈ (l.foldl
          (fun acc h =>
            if acc.any (fun x => x.id == h.id) then
              acc.map (fun x => if x.id == h.id then h else x)
            else acc ++ [h]) acc).map (fun x => x.id)
  | [], acc, i, hi => hi
  | h :: hs, acc, i, hi => by
    rw [List.foldl_cons]
    by_cases hc : acc.any (fun x => x.id == h.id) = true
    · rw [if_pos hc]
      exact cids_mono_overwrite_foldl hs _ i (by rw [coverwrite_ids]; exact hi)
    · rw [if_neg hc]
      exact cids_mono_overwrite_foldl hs (acc ++ [h]) i
        (by rw [List.map_append, List.mem_append]; exact Or.inl hi)

theorem cids_complete_overwrite_foldl :
    ∀ (l acc : List CHit) (h : CHit), h ∈ l →
      h.id ∈ (l.foldl
          (fun acc h =>
            if acc.any (fun x => x.id == h.id) then
              acc.map (fun x => if x.id == h.id then h else x)
            else acc ++ [h]) acc).map (fun x => x.id)
  | [], _, _, hmem => absurd hmem (List.not_mem_nil _)
  | g :: gs, acc, h, hmem => by
    rw [List.foldl_cons]
    rcases List.mem_cons.mp hmem with he | hin
    · subst he
      by_cases hc : acc.any (fun x => x.id == h.id) = true
      · rw [if_pos hc]
        obtain ⟨x, hx, hbeq⟩ := List.any_eq_true.mp hc
        refine cids_mono_overwrite_foldl gs _ h.id ?_
        rw [coverwrite_ids]
        exact List.mem_map.mpr ⟨x, hx, beq_iff_eq.mp hbeq⟩
      · rw [if_neg hc]
        refine cids_mono_overwrite_foldl gs (acc ++ [h]) h.id ?_
        rw [List.map_append, List.mem_append]
        right
        simp
    · by_cases hc : acc.any (fun x => x.id == g.id) = true
      · rw [if_pos hc]
        exact cids_complete_overwrite_foldl gs _ h hin
      · rw [if_neg hc]
        exact cids_complete_overwrite_foldl gs (acc ++ [g]) h hin

theorem collectionPool_shape (v b : List CHit) (p : CHit)
    (hp : p ∈ collectionPool v b) :
    (p ∈ v ∨ p ∈ b) ∧ (p.id ∈ v.map (fun x => x.id) → p ∈ v) := by
  unfold collectionPool at hp
  simp only [] at hp
  rcases mem_cdedup_foldl b _ p hp with hA | ⟨hb, hnotid⟩
  · rcases mem_coverwrite_foldl v [] p hA with hnil | hv
    · cases hnil
    · exact ⟨Or.inl hv, fun _ => hv⟩
  · refine ⟨Or.inr hb, ?_⟩
    intro hidv
    obtain ⟨g, hg, hgid⟩ := List.mem_map.mp hidv
    exact absurd (hgid ▸ cids_complete_overwrite_foldl v [] g hg) hnotid

theorem collection_rrf_shape (v b : List CHit) (kc : ℚ) :
    ∀ out ∈ reciprocal_rank_fusion v b kc,
      ∃ h, (h ∈ v ∨ (h ∈ b ∧ h.id ∉ v.map (fun x => x.id))) ∧
        out = { h with rrfScore := some (collectionKey v b kc h) } := by
  intro out hout
  unfold reciprocal_rank_fusion at hout
  obtain ⟨h, hmem, hEq⟩ := List.mem_map.mp hout
  rw [mem_sortDescBy] at hmem
  have h3 := collectionPool_shape v b h hmem
  by_cases hid : h.id ∈ v.map (fun x => x.id)
  · exact ⟨h, Or.inl (h3.2 hid), hEq.symm⟩
  · rcases h3.1 with hv | hb
    · exact ⟨h, Or.inl hv, hEq.symm⟩
    · exact ⟨h, Or.inr ⟨hb, hid⟩, hEq.symm⟩

/-! ## Helper lemmas: token bound of emitted chunks (claim C4) -/

theorem tok_joinSep_nlnl (tok : List Char → Nat)
    (Hsep : ∀ a b, tok (a ++ '\n' :: '\n' :: b) = tok a + tok b) :
    ∀ (x : List Char) (xs : List (List Char)),
      tok (joinSep ['\n', '\n'] (x :: xs)) = tok x + (xs.map tok).sum
  | x, [] => by simp [joinSep]
  | x, y :: t => by
    rw [joinSep, List.append_assoc]
    simp only [List.cons_append, List.nil_append]
    rw [Hsep, tok_joinSep_nlnl tok Hsep y t]
    simp [Nat.add_assoc]

theorem emitted_group_good (tok : List Char → Nat) (maxT : Nat)
    (Hsep : ∀ a b, tok (a ++ '\n' :: '\n' :: b) = tok a + tok b)
    (paras : List (List Char)) (curText : List (List Char))
    (hmem : ∀ x ∈ curText, x ∈ paras) (hne : curText ≠ [])
    (hgood : (curText.map tok).sum ≤ maxT ∨ ∃ p, curText = [p]) :
    tok (joinSep ['\n', '\n'] curText) ≤ maxT ∨
      joinSep ['\n', '\n'] curText ∈ paras := by
  rcases hgood with hle | ⟨p, hp⟩
  · left
    cases curText with
    | nil => exact absurd rfl hne
    | cons x xs =>
      rw [tok_joinSep_nlnl tok Hsep x xs]
      simpa using hle
  · right
    subst hp
    exact hmem p (List.mem_singleton.mpr rfl)

theorem foldl_splitStep_good (tok : List Char → Nat) (maxT : Nat)
    (hp : List Char)
    (Hsep : ∀ a b, tok (a ++ '\n' :: '\n' :: b) = tok a + tok b)
    (paras : List (List Char)) :
    ∀ (ps : List (List Char)) (st : SplitState),
      (∀ p ∈ ps, p ∈ paras) →
      (∀ ch ∈ st.subs, tok ch.text ≤ maxT ∨ ch.text ∈ paras) →
      (∀ x ∈ st.curText, x ∈ paras) →
      st.curTokens = (st.curText.map tok).sum →
      ((st.curText.map tok).sum ≤ maxT ∨ ∃ p, st.curText = [p]) →
      (∀ ch ∈ (ps.foldl (splitStep tok maxT hp) st).subs,
          tok ch.text ≤ maxT ∨ ch.text ∈ paras) ∧
        (∀ x ∈ (ps.foldl (splitStep tok maxT hp) st).curText, x ∈ paras) ∧
        (((ps.foldl (splitStep tok maxT hp) st).curText.map tok).sum ≤ maxT ∨
          ∃ p, (ps.foldl (splitStep tok maxT hp) st).curText = [p])
  | [], st, _, hsubs, hmem, _, hgood => by
    rw [List.foldl_nil]
    exact ⟨hsubs, hmem, hgood⟩
  | p :: ps, st, hps, hsubs, hmem, htoks, hgood => by
    rw [List.foldl_cons]
    have hpmem : p ∈ paras := hps p (List.mem_cons_self p ps)
    have hpsmem : ∀ q ∈ ps, q ∈ paras := by
      intro q hq
      exact hps q (List.mem_cons_of_mem p hq)
    unfold splitStep
    by_cases hc : maxT < st.curTokens + tok p ∧ st.curText ≠ []
    · rw [if_pos hc]
      refine foldl_splitStep_good tok maxT hp Hsep paras ps _ hpsmem ?_ ?_ ?_ ?_
      · intro ch hch
        simp only [] at hch
        rcases List.mem_append.mp hch with h | h
        · exact hsubs ch h
        · rw [List.mem_singleton] at h
          subst h
          exact emitted_group_good tok maxT Hsep paras st.curText hmem hc.2
            (by rw [← htoks] at hgood ⊢; simpa using hgood)
      · intro x hx
        simp only [List.mem_singleton] at hx
        subst hx
        exact hpmem
      · simp
      · right
        exact ⟨p, rfl⟩
    · rw [if_neg hc]
      refine foldl_splitStep_good tok maxT hp Hsep paras ps _ hpsmem hsubs ?_ ?_ ?_
      · intro x hx
        simp only [] at hx
        rcases List.mem_append.mp hx with h | h
        · exact hmem x h
        · rw [List.mem_singleton] at h
          subst h
          exact hpmem
      · simp [htoks, List.sum_append]
      · rcases not_and_or.mp hc with h | h
        · left
          have hle : st.curTokens + tok p ≤ maxT := Nat.le_of_not_lt h
          rw [htoks] at hle
          simpa [List.sum_append] using hle
        · have hnil : st.curText = [] := not_not.mp h
          right
          exact ⟨p, by rw [hnil]; rfl⟩

theorem split_large_chunk_good (tok : List Char → Nat) (maxT : Nat)
    (Hsep : ∀ a b, tok (a ++ '\n' :: '\n' :: b) = tok a + tok b)
    (c : Chunk) :
    ∀ ch ∈ split_large_chunk tok maxT c,
      tok ch.text ≤ maxT ∨ ch.text ∈ splitParasL c.text := by
  intro ch hch
  unfold split_large_chunk at hch
  simp only [] at hch
  have hinv := foldl_splitStep_good tok maxT c.headingPath Hsep
    (splitParasL c.text) (splitParasL c.text) ⟨[], [], 0⟩
    (fun p h => h) (by intro x hx; cases hx) (by intro x hx; cases hx)
    (by simp) (by left; simp)
  rcases hinv with ⟨hsubs, hmem, hgood⟩
  by_cases hnil :
      ((splitParasL c.text).foldl (splitStep tok maxT c.headingPath)
        ⟨[], [], 0⟩).curText = []
  · rw [if_pos hnil] at hch
    exact hsubs ch hch
  · rw [if_neg hnil] at hch
    rcases List.mem_append.mp hch with h | h
    · exact hsubs ch h
    · rw [List.mem_singleton] at h
      subst h
      exact emitted_group_good tok maxT Hsep (splitParasL c.text) _ hmem hnil
        hgood

/-! ## Claim theorems -/

theorem except_pure {α : Type} (a : α) :
    (pure a : Except Unit α) = Except.ok a := rfl

/-- C1 counterexample: in `CollectionRAGService.search` an embedding
exception is NOT swallowed — with a resolvable collection and a working
Meilisearch index, an embedding failure makes the whole call raise
(`.error ()`) instead of returning a lexical-only hit list, because the
function's single `try/except` logs and re-raises. -/
theorem collection_search_embed_failure_raises :
    collection_search envCollEmbedFail 6 none = .error () := rfl

/-- C1 (amended): in the `rag_search` router an embedding failure is
swallowed — vector search is skipped and the request still returns an
`.ok` hit list computed from the lexical branch alone; in
`CollectionRAGService.search` an embedding exception is re-raised to the
caller, and only an embedding call that returns no vectors (empty list)
degrades to lexical-only retrieval there. -/
theorem embedding_failure_handling :
    (∀ (q : String) (t : Int) (env : RagEnv), env.embedRes = .error () →
        ¬ pyStrip q = "" →
        rag_search q t env =
          .ok (rag_reciprocal_rank_fusion []
            (ragBm25Hits env (clampTopK t).toNat) (clampTopK t).toNat 60)) ∧
      (∀ (env : CollectionEnv) (topK : Nat) (rr : Option RerankEnv)
          (c : Collection), env.collectionRes = .ok c →
          env.embedRes = .error () →
          collection_search env topK rr = .error ()) ∧
      (∀ (env : CollectionEnv) (topK : Nat) (c : Collection),
          env.collectionRes = .ok c → env.embedRes = .ok [] →
          collection_search env topK none =
            .ok ((reciprocal_rank_fusion []
              (search_meilisearch env.meiliConfigured env.meiliRes)
              60).take topK)) := by
  refine ⟨?_, ?_, ?_⟩
  · intro q t env he hq
    show (if pyStrip q = "" then Except.ok [] else
        Except.ok (rag_reciprocal_rank_fusion (ragVectorHits env)
          (ragBm25Hits env (clampTopK t).toNat) (clampTopK t).toNat 60)) = _
    rw [if_neg hq, ragVectorHits_embed_err he]
  · intro env topK rr c hc he
    simp only [collection_search, hc, he, except_bind_ok, except_bind_err]
  · intro env topK c hc he
    have hv : collectionVectorStep env c [] = Except.ok [] := rfl
    simp only [collection_search, hc, he, except_bind_ok, hv]
    rfl

theorem embedding_failure_handling_witness :
    (rag_search "hello" 6 envRouterEmbedFail =
        .ok (rag_reciprocal_rank_fusion []
          (ragBm25Hits envRouterEmbedFail (clampTopK 6).toNat)
          (clampTopK 6).toNat 60)) ∧
      collection_search envCollEmbedFail 6 none = .error () ∧
      collection_search envCollEmbedEmpty 6 none =
        .ok ((reciprocal_rank_fusion []
          (search_meilisearch envCollEmbedEmpty.meiliConfigured
            envCollEmbedEmpty.meiliRes) 60).take 6) :=
  ⟨embedding_failure_handling.1 "hello" 6 envRouterEmbedFail rfl (by decide),
   embedding_failure_handling.2.1 envCollEmbedFail 6 none
     { id := "1", collectionKey := "help_center" } rfl rfl,
   embedding_failure_handling.2.2 envCollEmbedEmpty 6
     { id := "1", collectionKey := "help_center" } rfl rfl⟩

/-- C2: the Reciprocal Rank Fusion worked example.  With
`vector_hits = [A, B, C]`, `lexical_hits = [B, A, D]` and constant 60:
`score(A) = 1/61 + 1/62`, `score(B) = 1/62 + 1/61` (an exact tie with A),
`score(C) = 1/63`, `score(D) = 1/63`, and the fused order is A, B, C, D —
ties broken by stable first-seen order, {A, B} above {C, D}.  The
collection-service fusion ranks identically, writing the same values into
`rrf_score`. -/
theorem rrf_worked_example :
    ((rag_reciprocal_rank_fusion [wexA, wexB, wexC] [wexB2, wexA2, wexD]
          10 60).map (fun h => (h.id, h.score)) =
        [("A", 1 / 61 + 1 / 62), ("B", 1 / 62 + 1 / 61), ("C", 1 / 63),
          ("D", 1 / 63)]) ∧
      ((1 : ℚ) / 61 + 1 / 62 = 1 / 62 + 1 / 61) ∧
      ((reciprocal_rank_fusion [cwexA, cwexB, cwexC] [cwexB2, cwexA2, cwexD]
          60).map (fun h => (h.id, h.rrfScore)) =
        [("A", some (1 / 61 + 1 / 62)), ("B", some (1 / 62 + 1 / 61)),
          ("C", some ((1 : ℚ) / 63)), ("D", some (1 / 63))]) := by
  refine ⟨?_, by norm_num, ?_⟩
  · norm_num +decide [rag_reciprocal_rank_fusion, ragKey, dedupByIdFirst,
      sortDescBy, insertDescBy, rrfScore, lastRank, lastRankGo, wexA, wexB,
      wexC, wexB2, wexA2, wexD]
  · norm_num +decide [reciprocal_rank_fusion, collectionKey, collectionPool,
      sortDescBy, insertDescBy, rrfScore, lastRank, lastRankGo, cwexA, cwexB,
      cwexC, cwexB2, cwexA2, cwexD]

/-- C3: chunker reconstruction.  For every tokenizer, token budget and
input document, concatenating the texts of the emitted chunks in order
preserves exactly the non-whitespace character sequence of the original
document — no non-whitespace content is lost or duplicated (whitespace is
normalized at chunk boundaries by `strip()` and inside re-split chunks by
the `'\n\n'` re-join). -/
theorem chunk_reconstruction (tok : List Char → Nat) (maxT : Nat)
    (content : List Char) :
    nonWs ((to_chunks tok maxT content).map (fun c => c.text)).flatten =
      nonWs content := by
  rw [nonWs_flatten]
  have h : nwConcat ((to_chunks tok maxT content).map (fun c => c.text)) =
      chunksNonWs (to_chunks tok maxT content) := by
    unfold nwConcat chunksNonWs
    rw [List.map_map]
    rfl
  rw [h, to_chunks_nonWs]

/-- C4 counterexample: with the character-count tokenizer and
`max_tokens = 4`, the input `"ab\n\ncd"` makes the chunker emit the chunk
`"ab\n\ncd"` of token count 6 > 4 which is NOT a single pre-split
paragraph (its paragraphs are `"ab"` and `"cd"`): the paragraph re-join
step counts `sum(tok(para))` but emits `'\n\n'.join(paras)`, whose
separators the running count never includes, so a multi-paragraph chunk
can exceed the budget whenever the tokenizer is not additive across the
join (the real BPE tokenizer is not). -/
theorem chunk_token_bound_cex :
    ¬ tokenBoundClaim (fun cs => cs.length) 4 ("ab\n\ncd".toList) := by
  unfold tokenBoundClaim
  decide

/-- C4 (amended): for every tokenizer that is additive across the
`'\n\n'` separators the re-join inserts (in particular any tokenizer that
weighs characters individually with whitespace free), every emitted chunk
is within `max_tokens`, except a chunk that is a single paragraph of the
oversized pre-split chunk it came from and exceeds `max_tokens` by
itself. -/
theorem chunk_token_bound (tok : List Char → Nat) (maxT : Nat)
    (content : List Char)
    (Hsep : ∀ a b, tok (a ++ '\n' :: '\n' :: b) = tok a + tok b) :
    tokenBoundClaim tok maxT content := by
  intro c hc
  unfold to_chunks at hc
  obtain ⟨l, hl, hcl⟩ := List.mem_flatten.mp hc
  obtain ⟨c0, hc0, hfc0⟩ := List.mem_map.mp hl
  subst hfc0
  by_cases hbig : maxT < tok c0.text
  · rw [if_pos hbig] at hcl
    rcases split_large_chunk_good tok maxT Hsep c0 c hcl with hle | hmem
    · exact Or.inl hle
    · by_cases hle2 : tok c.text ≤ maxT
      · exact Or.inl hle2
      · exact Or.inr ⟨Nat.lt_of_not_le hle2, c0, hc0, hmem⟩
  · rw [if_neg hbig] at hcl
    rw [List.mem_singleton] at hcl
    subst hcl
    exact Or.inl (Nat.le_of_not_lt hbig)

theorem chunk_token_bound_witness :
    (∀ a b, nwLen (a ++ '\n' :: '\n' :: b) = nwLen a + nwLen b) ∧
      tokenBoundClaim nwLen 4 ("ab\n\ncd".toList) := by
  have hsep : ∀ a b, nwLen (a ++ '\n' :: '\n' :: b) = nwLen a + nwLen b := by
    intro a b
    unfold nwLen
    rw [nonWs_append, nonWs_cons_ws (c := '\n') rfl,
      nonWs_cons_ws (c := '\n') rfl, List.length_append]
  exact ⟨hsep, chunk_token_bound nwLen 4 ("ab\n\ncd".toList) hsep⟩

/-- C5: if the lexical (BM25) branch raises, `rag_search` still fuses with
an empty lexical list and returns exactly the pure vector ranking
truncated to the clamped `top_k`: the vector hits in their original
descending-similarity order, each carrying the vector-only RRF value the
fusion writes into `score`; in particular the returned ids are the ids of
the first `top_k` vector hits in order. -/
theorem lexical_failure_pure_vector (q : String) (t : Int) (env : RagEnv)
    (e : List ℚ) (es : List (List ℚ)) (rows : List VecRow)
    (hq : ¬ pyStrip q = "")
    (hemb : env.embedRes = .ok (e :: es))
    (hvec : env.vectorRes e = .ok rows)
    (hlex : env.meiliRes = .error ())
    (hnd : ((rows.map shapeVecHit).map (fun x => x.id)).Nodup) :
    rag_search q t env =
        .ok (pureVectorRanking (rows.map shapeVecHit) (clampTopK t).toNat) ∧
      (pureVectorRanking (rows.map shapeVecHit) (clampTopK t).toNat).map
          (fun h => h.id) =
        ((rows.map shapeVecHit).take (clampTopK t).toNat).map
          (fun h => h.id) := by
  constructor
  · show (if pyStrip q = "" then Except.ok [] else
        Except.ok (rag_reciprocal_rank_fusion (ragVectorHits env)
          (ragBm25Hits env (clampTopK t).toNat) (clampTopK t).toNat 60)) = _
    rw [if_neg hq]
    have hv : ragVectorHits env = rows.map shapeVecHit := by
      unfold ragVectorHits
      rw [hemb]
      simp [hvec]
    rw [hv, ragBm25Hits_err hlex, rag_rrf_empty_lex _ _ hnd]
  · exact pureVectorRanking_ids _ _

theorem lexical_failure_pure_vector_witness :
    (rag_search " hi " 6 envRouterLexFail =
        .ok (pureVectorRanking
          ([{ id := "x", score := 9 / 10 }, { id := "y", score := 1 / 2 }].map
            shapeVecHit) (clampTopK 6).toNat)) ∧
      (pureVectorRanking
          ([{ id := "x", score := 9 / 10 }, { id := "y", score := 1 / 2 }].map
            shapeVecHit) (clampTopK 6).toNat).map (fun h => h.id) =
        (([{ id := "x", score := 9 / 10 },
            { id := "y", score := 1 / 2 }].map shapeVecHit).take
          (clampTopK 6).toNat).map (fun h => h.id) :=
  lexical_failure_pure_vector " hi " 6 envRouterLexFail [1, 0] []
    [{ id := "x", score := 9 / 10 }, { id := "y", score := 1 / 2 }]
    (by decide) rfl rfl rfl (by decide)

/-- C6: the PRNG seed `_embed_local` feeds to `np.random` is
`hash(text) % 2**32`, and Python's string `hash` is salted per process
(PEP 456); the seed is therefore a function of the process salt, not of
the text alone — two processes with different salts embed the same text
with different seeds, so the "deterministic" stub embedder is not
deterministic across process restarts, contradicting the code's own
comment and the spec's re-ingestion requirement. -/
theorem embed_local_seed_salt_dependent :
    ∃ h1 h2 : String → Nat,
      embed_local_seed h1 "hello" ≠ embed_local_seed h2 "hello" := by
  refine ⟨fun _ => 0, fun _ => 1, ?_⟩
  unfold embed_local_seed
  decide

/-- C7: with a configured reranker whose client is uninitialized (no
credentials) or whose remote call raises, `CollectionRAGService.search`
returns exactly the fused order truncated to `top_k` — the request does
not fail. -/
theorem reranker_unavailable_fallback (env : CollectionEnv) (topK : Nat)
    (re : RerankEnv) (c : Collection) (embs : List (List ℚ))
    (vh : List CHit)
    (hcoll : env.collectionRes = .ok c)
    (hemb : env.embedRes = .ok embs)
    (hvec : collectionVectorStep env c embs = Except.ok vh)
    (hre : re.clientOk = false ∨ re.callRes = .error ()) :
    collection_search env topK (some re) =
      .ok ((reciprocal_rank_fusion vh
        (search_meilisearch env.meiliConfigured env.meiliRes) 60).take
          topK) := by
  simp only [collection_search, hcoll, hemb, except_bind_ok, hvec]
  by_cases hf : reciprocal_rank_fusion vh
      (search_meilisearch env.meiliConfigured env.meiliRes) 60 = []
  · rw [if_neg (by simp [hf])]
    rfl
  · rw [if_pos hf, cohere_rerank_fallback re _ topK hre, List.take_take,
      Nat.min_eq_left (by omega)]
    rfl

theorem reranker_unavailable_fallback_witness :
    collection_search envCollOk 6 (some reNoClient) =
      .ok ((reciprocal_rank_fusion [{ id := "V1", score := 9 / 10 }]
        (search_meilisearch envCollOk.meiliConfigured envCollOk.meiliRes)
        60).take 6) :=
  reranker_unavailable_fallback envCollOk 6 reNoClient
    { id := "1", collectionKey := "help_center" } [[1, 0]]
    [{ id := "V1", score := 9 / 10 }] rfl rfl rfl (Or.inl rfl)

/-- C8: malformed input is normalized, not rejected: a query that is
empty after stripping returns `.ok []` (no error), and the effective
`top_k` is `max(1, min(top_k, 10))`, always within `[1, 10]`. -/
theorem malformed_input_normalized :
    (∀ (q : String) (t : Int) (env : RagEnv), pyStrip q = "" →
        rag_search q t env = .ok []) ∧
      ∀ t : Int, 1 ≤ clampTopK t ∧ clampTopK t ≤ 10 := by
  constructor
  · intro q t env hq
    show (if pyStrip q = "" then Except.ok [] else
        Except.ok (rag_reciprocal_rank_fusion (ragVectorHits env)
          (ragBm25Hits env (clampTopK t).toNat) (clampTopK t).toNat 60)) = _
    rw [if_pos hq]
  · intro t
    unfold clampTopK
    omega

theorem malformed_input_normalized_witness :
    rag_search "   " 50 envRouterLexFail = .ok [] ∧
      (1 ≤ clampTopK (-5) ∧ clampTopK (-5) ≤ 10) :=
  ⟨malformed_input_normalized.1 "   " 50 envRouterLexFail (by decide),
   malformed_input_normalized.2 (-5)⟩

/-- C9 counterexample: in the await traces of both `rag_search` and
`CollectionRAGService.search` the two index searches do NOT overlap — it
is false that both searches start before either completes, because the
code awaits the vector query to completion before issuing the lexical
query. -/
theorem searches_not_concurrent :
    ¬ searchesConcurrent ragSearchTrace ∧
      ¬ searchesConcurrent collectionSearchTrace := by
  unfold searchesConcurrent eventIdx ragSearchTrace collectionSearchTrace
  decide

/-- C9 (amended): within one retrieval call the vector search and the
lexical search are issued sequentially — embedding completes before the
vector search starts, the vector search completes before the lexical
search starts — and both results are available before fusion runs, in
both pipelines. -/
theorem searches_sequential :
    (eventIdx ragSearchTrace .embedDone ≤ eventIdx ragSearchTrace .vecStart ∧
      eventIdx ragSearchTrace .vecDone < eventIdx ragSearchTrace .lexStart ∧
      eventIdx ragSearchTrace .lexDone <
        eventIdx ragSearchTrace .fuseStart) ∧
      (eventIdx collectionSearchTrace .embedDone ≤
          eventIdx collectionSearchTrace .vecStart ∧
        eventIdx collectionSearchTrace .vecDone <
          eventIdx collectionSearchTrace .lexStart ∧
        eventIdx collectionSearchTrace .lexDone <
          eventIdx collectionSearchTrace .fuseStart) := by
  unfold eventIdx ragSearchTrace collectionSearchTrace
  decide

/-- C10 counterexample: in `CollectionRAGService.reciprocal_rank_fusion`
a hit appearing in both input lists is represented by the vector object,
but its `score` is NOT replaced by the RRF score — the original vector
score (9/10) survives and the RRF value (1/61 + 1/61) is stored in the
separate `rrf_score` key. -/
theorem collection_fusion_keeps_original_score :
    ((reciprocal_rank_fusion [cwexA] [cwexA2] 60).map
        (fun h => (h.id, h.score, h.rrfScore)) =
      [("A", 9 / 10, some (1 / 61 + 1 / 61))]) ∧
      (9 / 10 : ℚ) ≠ 1 / 61 + 1 / 61 := by
  constructor
  · norm_num +decide [reciprocal_rank_fusion, collectionKey, collectionPool,
      sortDescBy, insertDescBy, rrfScore, lastRank, lastRankGo, cwexA, cwexA2]
  · norm_num

/-- C10 (amended): every fused hit is one of the input hit objects — the
vector-list object whenever its id occurs in the vector list (so title,
url, content and source come from the vector hit for ids present in both
lists) — with, in the router fusion, only `score` overwritten by the RRF
value, and, in the collection fusion, `score` left unchanged and the RRF
value added as `rrf_score`; consequently no fused hit ever carries source
"fused" when no input hit does. -/
theorem fused_hit_provenance :
    (∀ (v b : List RAGHit) (k : Nat) (kc : ℚ),
        ∀ out ∈ rag_reciprocal_rank_fusion v b k kc,
          ∃ h, (h ∈ v ∨ (h ∈ b ∧ h.id ∉ v.map (fun x => x.id))) ∧
            out = { h with score := ragKey v b kc h }) ∧
      (∀ (v b : List CHit) (kc : ℚ), ∀ out ∈ reciprocal_rank_fusion v b kc,
        ∃ h, (h ∈ v ∨ (h ∈ b ∧ h.id ∉ v.map (fun x => x.id))) ∧
          out = { h with rrfScore := some (collectionKey v b kc h) }) ∧
      (∀ (v b : List RAGHit) (k : Nat) (kc : ℚ),
        (∀ h ∈ v ++ b, h.source ≠ "fused") →
        ∀ out ∈ rag_reciprocal_rank_fusion v b k kc,
          out.source ≠ "fused") := by
  refine ⟨rag_rrf_shape, collection_rrf_shape, ?_⟩
  intro v b k kc hsrc out hout
  obtain ⟨h, hmem, hEq⟩ := rag_rrf_shape v b k kc out hout
  rw [hEq]
  show h.source ≠ "fused"
  rcases hmem with hv | ⟨hb, _⟩
  · exact hsrc h (List.mem_append.mpr (Or.inl hv))
  · exact hsrc h (List.mem_append.mpr (Or.inr hb))

theorem fused_hit_provenance_witness :
    (∃ h, (h ∈ [wexA] ∨ (h ∈ ([] : List RAGHit) ∧
          h.id ∉ [wexA].map (fun x => x.id))) ∧
        { wexA with score := ragKey [wexA] [] 60 wexA } =
          { h with score := ragKey [wexA] [] 60 h }) ∧
      (∃ h, (h ∈ [cwexA] ∨ (h ∈ ([] : List CHit) ∧
          h.id ∉ [cwexA].map (fun x => x.id))) ∧
        { cwexA with rrfScore := some (collectionKey [cwexA] [] 60 cwexA) } =
          { h with rrfScore := some (collectionKey [cwexA] [] 60 h) }) ∧
      ({ wexA with score := ragKey [wexA] [] 60 wexA } : RAGHit).source ≠
        "fused" :=
  ⟨fused_hit_provenance.1 [wexA] [] 1 60 _
     (by
       show _ ∈ [{ wexA with score := ragKey [wexA] [] 60 wexA }]
       exact List.mem_singleton.mpr rfl),
   fused_hit_provenance.2.1 [cwexA] [] 60 _
     (by
       show _ ∈
         [{ cwexA with rrfScore := some (collectionKey [cwexA] [] 60 cwexA) }]
       exact List.mem_singleton.mpr rfl),
   fused_hit_provenance.2.2 [wexA] [] 1 60 (by decide) _
     (by
       show _ ∈ [{ wexA with score := ragKey [wexA] [] 60 wexA }]
       exact List.mem_singleton.mpr rfl)⟩
